import Mathlib

/-!
Verification of the numeric-literal conversion core of `convert.py`
(binary / hexadecimal / fixed-point / exponential conversions).

Machine integers in the source are Python arbitrary-precision `int`s,
embedded as `ℕ`/`ℤ`; `decimal.Decimal` values (dyadic rationals here)
are embedded as `ℚ`.  The float loops of `DecToExpCommand.run` are
embedded over exact rationals.
-/

namespace Convert

/- ## Definitions: shallow embedding of convert.py and of the specification -/

/-- Value of one digit character, as Python's `int(s, base)` assigns it
for bases up to 16 (`0`-`9`, `a`-`f`, `A`-`F`).  Characters outside the
base's alphabet make Python raise; theorems restrict to valid digits. -/
def digitVal (c : Char) : ℕ :=
  if 48 ≤ c.toNat ∧ c.toNat ≤ 57 then c.toNat - 48
  else if 97 ≤ c.toNat ∧ c.toNat ≤ 102 then c.toNat - 87
  else if 65 ≤ c.toNat ∧ c.toNat ≤ 70 then c.toNat - 55
  else 0

/-- Embedding of Python's `int(s, base)` on a string of valid digit
characters: standard positional (Horner) parsing, most significant
digit first. -/
def parseUnsignedDigits (base : ℕ) (s : List Char) : ℕ :=
  s.foldl (fun acc c => base * acc + digitVal c) 0

/-- A character is a binary digit. -/
def IsBinDigits (s : List Char) : Prop := ∀ c ∈ s, c = '0' ∨ c = '1'

instance (s : List Char) : Decidable (IsBinDigits s) := by
  unfold IsBinDigits; infer_instance

/-- Embedding of `UFixedToDecimal` (convert.py lines 330-339):
`int(matches['int'], 2)` plus, for every fractional digit `'1'` at
0-indexed position `i`, the weight `2 ** (-i - 1)`, accumulated by the
source's `enumerate` loop. -/
def UFixedToDecimal (intDigits fracDigits : List Char) : ℚ :=
  let integer_portion : ℕ := parseUnsignedDigits 2 intDigits
  let fractional_portion : ℚ :=
    (List.enum fracDigits).foldl
      (fun value p => if p.2 = '1' then value + (2:ℚ) ^ (-(p.1:ℤ) - 1) else value) 0
  (integer_portion : ℚ) + fractional_portion

/-- Embedding of `FixedToDecimal` (convert.py lines 379-391): if the
leading character of the integer digits is `'0'` the value is the
unsigned one; otherwise `power = len - 1`, `start = -(2 ** power)`, the
leading digit is replaced by `'0'` and the unsigned value of the
modified digits is added.  The source indexes `matches['int'][0]`, so
the integer-digit list is non-empty on every reachable input (the
source pattern group is `[01]+`); the `[]` case below is unreachable. -/
def FixedToDecimal (intDigits fracDigits : List Char) : ℚ :=
  match intDigits with
  | [] => 0
  | c :: rest =>
    if c = '0' then UFixedToDecimal (c :: rest) fracDigits
    else -((2:ℚ) ^ ((c :: rest).length - 1)) + UFixedToDecimal ('0' :: rest) fracDigits

/-- Specification-side integer value: "the integer value of I parsed in
base 2", written as the positional sum Σ bit_i · 2^(len-1-i). -/
def specIntVal (I : List Char) : ℕ :=
  ∑ i in Finset.range I.length,
    (if I.getD i '0' = '1' then 1 else 0) * 2 ^ (I.length - 1 - i)

/-- Specification-side fractional value: "Σ over fractional digit
positions i (0-indexed) where digit is 1 of 2^(-(i+1))". -/
def specFracVal (F : List Char) : ℚ :=
  ∑ i in Finset.range F.length,
    if F.getD i '0' = '1' then (2:ℚ) ^ (-(i:ℤ) - 1) else 0

/-- Specification-side unsigned fixed-point value: integer part plus
fractional part. -/
def specUnsignedFixed (I F : List Char) : ℚ :=
  (specIntVal I : ℚ) + specFracVal F

/-- Specification-side signed (two's-complement) fixed-point value:
leading bit `0` means unsigned; otherwise `-(2^(len-1))` plus the
unsigned value of the digits with the leading bit replaced by `0`. -/
def specSignedFixed (I F : List Char) : ℚ :=
  if I.getD 0 '0' = '0' then specUnsignedFixed I F
  else -((2:ℚ) ^ (I.length - 1)) + specUnsignedFixed ('0' :: I.tail) F

/-- Embedding of `twos_complement(value, nbits, base)`: `val = int(value,
base)`; if `val < 0` add `1 << nbits` (unreachable for a digit-only
string, kept from the source); else if `val & (1 << (nbits - 1))` is
non-zero subtract `1 << nbits`; else return `val` unchanged. -/
def twos_complement (value : List Char) (nbits : ℕ) (base : ℕ) : ℤ :=
  if (parseUnsignedDigits base value : ℤ) < 0 then
    (parseUnsignedDigits base value : ℤ) + ((1 <<< nbits : ℕ) : ℤ)
  else if (parseUnsignedDigits base value) &&& (1 <<< (nbits - 1)) ≠ 0 then
    (parseUnsignedDigits base value : ℤ) - ((1 <<< nbits : ℕ) : ℤ)
  else
    (parseUnsignedDigits base value : ℤ)

/-- First loop of `DecToExpCommand.run`: `while base > 10: base /= 10;
exp += 1`, embedded over exact rationals with explicit fuel (the source
loop has no bound; fuel exhaustion while the guard still holds yields
`none`). -/
def shrinkLoop : ℕ → ℚ → ℤ → Option (ℚ × ℤ)
  | 0, base, exp => if 10 < base then none else some (base, exp)
  | fuel+1, base, exp =>
    if 10 < base then shrinkLoop fuel (base / 10) (exp + 1) else some (base, exp)

/-- Second loop of `DecToExpCommand.run`: `while base < 1: base *= 10;
exp -= 1`, embedded with explicit fuel. -/
def growLoop : ℕ → ℚ → ℤ → Option (ℚ × ℤ)
  | 0, base, exp => if base < 1 then none else some (base, exp)
  | fuel+1, base, exp =>
    if base < 1 then growLoop fuel (base * 10) (exp - 1) else some (base, exp)

/-- The whole normalization of `DecToExpCommand.run`: starting from
`exp = 0`, run the divide-down loop and then the multiply-up loop. -/
def normalizeFuel (fuel : ℕ) (v : ℚ) : Option (ℚ × ℤ) :=
  match shrinkLoop fuel v 0 with
  | none => none
  | some (b, e) => growLoop fuel b e

/-- The normalization loop returns a result at some fuel bound, i.e.
the source's unbounded while-loops terminate on this input. -/
def NormTerminates (v : ℚ) : Prop :=
  ∃ fuel m e, normalizeFuel fuel v = some (m, e)

/-- The normalization loop fails at every fuel bound, i.e. the
source's unbounded while-loops never exit on this input. -/
def NormalizeDiverges (v : ℚ) : Prop :=
  ∀ fuel, normalizeFuel fuel v = none

/-- Rendering loop behind Python's positional integer formats
(`'{0:b}'` for binary, the digit part of `'{0:#x}'` for hexadecimal):
emit the digit character of `n % b` and recurse on `n / b`, producing
the most significant digit first. -/
def toDigitsBase (b : ℕ) (hb : 1 < b) (n : ℕ) (acc : List Char) : List Char :=
  if h : n = 0 then acc
  else toDigitsBase b hb (n / b) (Nat.digitChar (n % b) :: acc)
termination_by n
decreasing_by exact Nat.div_lt_self (Nat.pos_of_ne_zero h) hb

/-- Embedding of the default binary destination format
`_CONVERT_DST_BIN_DFLT = '{0:b}'` (convert.py line 37): lowercase
binary digits, no prefix; zero renders as "0". -/
def formatBinaryDefault (n : ℕ) : List Char :=
  if n = 0 then ['0'] else toDigitsBase 2 (by norm_num) n []

/-- Embedding of the default hexadecimal destination format
`_CONVERT_DST_HEX_DFLT = '{0:#x}'` (convert.py line 39): a `0x` prefix
followed by lowercase hexadecimal digits; zero renders as "0x0". -/
def formatHexDefault (n : ℕ) : List Char :=
  '0' :: 'x' :: (if n = 0 then ['0'] else toDigitsBase 16 (by norm_num) n [])

/-- One iteration of the per-selection loop shared by all commands:
the item is converted inside its own `try`; a failure (`none`)
increments `num_skip` and moves on, a success records the item's
replacement. -/
def processStep {α β : Type} (convert : α → Option β)
    (acc : List (Option β) × ℕ) (item : α) : List (Option β) × ℕ :=
  match convert item with
  | some b => (acc.1 ++ [some b], acc.2)
  | none => (acc.1 ++ [none], acc.2 + 1)

/-- Embedding of the `for sel in view.sel(): try ... except: num_skip
+= 1` loop: every item is processed independently, outcomes per item
plus the aggregate skip count. -/
def processBatch {α β : Type} (convert : α → Option β) (items : List α) :
    List (Option β) × ℕ :=
  items.foldl (processStep convert) ([], 0)

/-- Embedding of the item conversion of `BinToDecCommand.run` on a
selection containing exactly the literal: the default pattern
matches an optional `0b` prefix followed by one or more binary digits
(group 1), and the captured digits are parsed in base 2. -/
def binToDecItem (s : List Char) : Option ℕ :=
  let t := if s.take 2 = ['0', 'b'] then s.drop 2 else s
  if t ≠ [] ∧ IsBinDigits t then some (parseUnsignedDigits 2 t) else none

/-- Embedding of `load_pattern(view, name, default)`: the settings
lookup `view.settings().get(name, default)` yields the override when
the setting is present and the default otherwise; `re.compile` is an
oracle `compile` returning `none` exactly when compilation raises; on
any failure the default pattern is compiled instead. -/
def load_pattern {γ : Type} (compile : String → Option γ)
    (setting : Option String) (dflt : String) : Option γ :=
  match compile (setting.getD dflt) with
  | some c => some c
  | none => compile dflt

/-- Sample pattern string standing in for a valid override. -/
def sampleGoodPattern : String := "p1"

/-- Sample pattern string standing in for an override whose compilation
fails. -/
def sampleBadPattern : String := "(("

/-- Sample compilation oracle: compiles only the good pattern. -/
def sampleCompile : String → Option ℕ :=
  fun s => if s = sampleGoodPattern then some 0 else none

/- ## Theorems -/

theorem parse_foldl_acc (base : ℕ) (s : List Char) :
    ∀ a : ℕ, s.foldl (fun acc c => base * acc + digitVal c) a
      = a * base ^ s.length + parseUnsignedDigits base s := by
  induction s with
  | nil => intro a; simp [parseUnsignedDigits]
  | cons c t ih =>
    intro a
    have hl : parseUnsignedDigits base (c :: t)
        = List.foldl (fun acc c => base * acc + digitVal c) (base * 0 + digitVal c) t := rfl
    simp only [List.foldl_cons, List.length_cons]
    rw [ih, hl, ih]
    ring

theorem parse_cons (base : ℕ) (c : Char) (s : List Char) :
    parseUnsignedDigits base (c :: s)
      = digitVal c * base ^ s.length + parseUnsignedDigits base s := by
  have hl : parseUnsignedDigits base (c :: s)
      = List.foldl (fun acc c => base * acc + digitVal c) (base * 0 + digitVal c) s := rfl
  rw [hl, parse_foldl_acc]
  ring

theorem specIntVal_cons (c : Char) (s : List Char) :
    specIntVal (c :: s)
      = (if c = '1' then 1 else 0) * 2 ^ s.length + specIntVal s := by
  simp only [specIntVal, List.length_cons]
  rw [Finset.sum_range_succ']
  have hsum : (∑ i in Finset.range s.length,
      (if (c :: s).getD (i + 1) '0' = '1' then 1 else 0) * 2 ^ (s.length + 1 - 1 - (i + 1)))
      = ∑ i in Finset.range s.length,
        (if s.getD i '0' = '1' then 1 else 0) * 2 ^ (s.length - 1 - i) := by
    apply Finset.sum_congr rfl
    intro i _
    have he : s.length + 1 - 1 - (i + 1) = s.length - 1 - i := by omega
    rw [he, List.getD_cons_succ]
  rw [hsum]
  simp only [List.getD_cons_zero]
  have he0 : s.length + 1 - 1 - 0 = s.length := by omega
  rw [he0, add_comm]

theorem digitVal_of_bin (c : Char) (h : c = '0' ∨ c = '1') :
    digitVal c = if c = '1' then 1 else 0 := by
  rcases h with h0 | h1
  · subst h0; decide
  · subst h1; decide

theorem parse_eq_specIntVal (I : List Char) (h : IsBinDigits I) :
    parseUnsignedDigits 2 I = specIntVal I := by
  induction I with
  | nil => simp [parseUnsignedDigits, specIntVal]
  | cons c t ih =>
    rw [parse_cons, specIntVal_cons, ih (fun x hx => h x (List.mem_cons_of_mem c hx))]
    rw [digitVal_of_bin c (h c (List.mem_cons_self c t))]

theorem parse_bin_lt (I : List Char) (h : IsBinDigits I) :
    parseUnsignedDigits 2 I < 2 ^ I.length := by
  induction I with
  | nil => simp [parseUnsignedDigits]
  | cons c t ih =>
    rw [parse_cons]
    have ht := ih (fun x hx => h x (List.mem_cons_of_mem c hx))
    have hc : digitVal c ≤ 1 := by
      rw [digitVal_of_bin c (h c (List.mem_cons_self c t))]
      split <;> omega
    have hmul : digitVal c * 2 ^ t.length ≤ 1 * 2 ^ t.length :=
      Nat.mul_le_mul_right (2 ^ t.length) hc
    have hp : (2:ℕ) ^ (c :: t).length = 2 ^ t.length + 2 ^ t.length := by
      simp [List.length_cons, Nat.pow_succ]; ring
    omega

theorem foldl_enumFrom_frac (F : List Char) :
    ∀ (k : ℕ) (a : ℚ),
      (List.enumFrom k F).foldl
        (fun value p => if p.2 = '1' then value + (2:ℚ) ^ (-(p.1:ℤ) - 1) else value) a
      = a + ∑ i in Finset.range F.length,
          (if F.getD i '0' = '1' then (2:ℚ) ^ (-((k + i : ℕ):ℤ) - 1) else 0) := by
  induction F with
  | nil => intro k a; simp
  | cons c t ih =>
    intro k a
    have hstep : (if c = '1' then a + (2:ℚ) ^ (-(k:ℤ) - 1) else a)
        = a + (if c = '1' then (2:ℚ) ^ (-(k:ℤ) - 1) else 0) := by
      by_cases hc : c = '1' <;> simp [hc]
    simp only [List.enumFrom, List.foldl_cons, List.length_cons]
    rw [hstep, ih (k + 1), Finset.sum_range_succ']
    simp only [List.getD_cons_succ, List.getD_cons_zero]
    rw [add_assoc]
    congr 1
    rw [add_comm]
    congr 1
    apply Finset.sum_congr rfl
    intro i _
    have h1 : ((k + 1 + i : ℕ) : ℤ) = ((k + (i + 1) : ℕ) : ℤ) := by push_cast; ring
    rw [h1]

theorem ufixed_eq_spec (I F : List Char) (h : IsBinDigits I) :
    UFixedToDecimal I F = specUnsignedFixed I F := by
  unfold UFixedToDecimal specUnsignedFixed
  rw [parse_eq_specIntVal I h]
  have hF := foldl_enumFrom_frac F 0 0
  simp only [List.enum] at hF ⊢
  rw [hF, zero_add]
  unfold specFracVal
  have hsum : (∑ i in Finset.range F.length,
      (if F.getD i '0' = '1' then (2:ℚ) ^ (-((0 + i : ℕ):ℤ) - 1) else 0))
      = ∑ i in Finset.range F.length,
        (if F.getD i '0' = '1' then (2:ℚ) ^ (-(i:ℤ) - 1) else 0) := by
    apply Finset.sum_congr rfl
    intro i _
    norm_num
  rw [hsum]

theorem fixed_eq_spec (I F : List Char) (hne : I ≠ []) (h : IsBinDigits I) :
    FixedToDecimal I F = specSignedFixed I F := by
  cases I with
  | nil => exact absurd rfl hne
  | cons c rest =>
    have hrest : IsBinDigits rest := fun x hx => h x (List.mem_cons_of_mem c hx)
    have hbin0 : IsBinDigits ('0' :: rest) := by
      intro x hx
      rcases List.mem_cons.mp hx with h0 | hx2
      · exact Or.inl h0
      · exact hrest x hx2
    by_cases hc : c = '0'
    · subst hc
      have h1 : FixedToDecimal ('0' :: rest) F = UFixedToDecimal ('0' :: rest) F := by
        simp [FixedToDecimal]
      have h2 : specSignedFixed ('0' :: rest) F = specUnsignedFixed ('0' :: rest) F := by
        simp [specSignedFixed]
      rw [h1, h2]
      exact ufixed_eq_spec _ _ h
    · have h1 : FixedToDecimal (c :: rest) F
          = -((2:ℚ) ^ ((c :: rest).length - 1)) + UFixedToDecimal ('0' :: rest) F := by
        simp [FixedToDecimal, hc]
      have h2 : specSignedFixed (c :: rest) F
          = -((2:ℚ) ^ ((c :: rest).length - 1)) + specUnsignedFixed ('0' :: rest) F := by
        simp [specSignedFixed, List.getD_cons_zero, List.tail_cons, hc]
      rw [h1, h2]
      congr 1
      exact ufixed_eq_spec _ _ hbin0

/-- C2: for every binary integer-digit string I and fractional-digit
string F, the unsigned fixed-point conversion returns the integer value
of I parsed in base 2 plus the sum over fractional positions i with
digit '1' of 2^(-(i+1)); in particular the value of "101"."110" is
5.75. -/
theorem C2_ufixed_unsigned_correct :
    (∀ I F : List Char, IsBinDigits I →
      UFixedToDecimal I F = specUnsignedFixed I F)
    ∧ UFixedToDecimal ['1','0','1'] ['1','1','0'] = 23/4 := by
  constructor
  · exact fun I F h => ufixed_eq_spec I F h
  · simp [UFixedToDecimal, parseUnsignedDigits, digitVal, List.enum, List.enumFrom]
    norm_num

/-- Witness for C2 at the concrete input I = "10", F = "1". -/
theorem C2_ufixed_unsigned_correct_witness :
    IsBinDigits ['1','0']
    ∧ UFixedToDecimal ['1','0'] ['1'] = specUnsignedFixed ['1','0'] ['1'] :=
  ⟨by decide, C2_ufixed_unsigned_correct.1 ['1','0'] ['1'] (by decide)⟩

/-- C1: for every binary integer-digit string I and fractional-digit
string F, the signed fixed-point conversion returns the unsigned result
when the leading bit is '0', and otherwise -(2^(len(I)-1)) plus the
unsigned value of I with its leading bit replaced by '0' together with
F; in particular "101"."110" gives -2.25 and "1"."011" gives -0.625. -/
theorem C1_fixed_signed_correct :
    (∀ I F : List Char, I ≠ [] → IsBinDigits I →
      FixedToDecimal I F = specSignedFixed I F)
    ∧ FixedToDecimal ['1','0','1'] ['1','1','0'] = -9/4
    ∧ FixedToDecimal ['1'] ['0','1','1'] = -5/8 := by
  refine ⟨fun I F hne h => fixed_eq_spec I F hne h, ?_, ?_⟩
  · simp [FixedToDecimal, UFixedToDecimal, parseUnsignedDigits, digitVal,
      List.enum, List.enumFrom]
    norm_num
  · simp [FixedToDecimal, UFixedToDecimal, parseUnsignedDigits, digitVal,
      List.enum, List.enumFrom]
    norm_num

/-- Witness for C1 at the concrete input I = "10", F = "1". -/
theorem C1_fixed_signed_correct_witness :
    (['1','0'] : List Char) ≠ [] ∧ IsBinDigits ['1','0']
    ∧ FixedToDecimal ['1','0'] ['1'] = specSignedFixed ['1','0'] ['1'] :=
  ⟨by decide, by decide, C1_fixed_signed_correct.1 ['1','0'] ['1'] (by decide) (by decide)⟩

theorem land_shift_ne_zero (v k : ℕ) :
    (v &&& (1 <<< k) ≠ 0) ↔ v.testBit k = true := by
  rw [Nat.shiftLeft_eq, one_mul, Nat.and_two_pow]
  cases h : v.testBit k
  · simp
  · simp [(Nat.two_pow_pos k).ne']

theorem testBit_iff_ge (v n : ℕ) (hv : v < 2 ^ (n + 1)) :
    v.testBit n = true ↔ 2 ^ n ≤ v := by
  have hpos : 0 < 2 ^ n := Nat.two_pow_pos n
  rw [Nat.testBit_to_div_mod]
  have hlt : v / 2 ^ n < 2 := by
    rw [Nat.div_lt_iff_lt_mul hpos]
    calc v < 2 ^ (n + 1) := hv
      _ = 2 * 2 ^ n := by ring
  rw [Nat.mod_eq_of_lt hlt]
  simp only [decide_eq_true_eq]
  have hdiv1 : 1 ≤ v / 2 ^ n ↔ 2 ^ n ≤ v := by
    rw [Nat.le_div_iff_mul_le hpos, one_mul]
  constructor
  · intro h1
    exact hdiv1.mp (by omega)
  · intro h2
    have := hdiv1.mpr h2
    omega

theorem twos_complement_char (D : List Char) (h : IsBinDigits D) (hne : D ≠ []) :
    twos_complement D D.length 2
      = if 2 ^ (D.length - 1) ≤ parseUnsignedDigits 2 D
        then (parseUnsignedDigits 2 D : ℤ) - 2 ^ D.length
        else (parseUnsignedDigits 2 D : ℤ) := by
  have hlen : 1 ≤ D.length := List.length_pos.mpr hne
  have hlt : parseUnsignedDigits 2 D < 2 ^ D.length := parse_bin_lt D h
  have hlt' : parseUnsignedDigits 2 D < 2 ^ ((D.length - 1) + 1) := by
    have he : D.length - 1 + 1 = D.length := by omega
    rw [he]
    exact hlt
  have hshift : ((1 <<< D.length : ℕ) : ℤ) = 2 ^ D.length := by
    rw [Nat.shiftLeft_eq, one_mul]
    push_cast
    rfl
  have hnonneg : ¬ ((parseUnsignedDigits 2 D : ℤ) < 0) :=
    Int.not_lt.mpr (Int.natCast_nonneg _)
  unfold twos_complement
  rw [if_neg hnonneg]
  by_cases hb : 2 ^ (D.length - 1) ≤ parseUnsignedDigits 2 D
  · have ht : (parseUnsignedDigits 2 D) &&& (1 <<< (D.length - 1)) ≠ 0 :=
      (land_shift_ne_zero _ _).mpr ((testBit_iff_ge _ _ hlt').mpr hb)
    rw [if_pos ht, if_pos hb, hshift]
  · have ht : ¬ ((parseUnsignedDigits 2 D) &&& (1 <<< (D.length - 1)) ≠ 0) := by
      intro hcon
      exact hb ((testBit_iff_ge _ _ hlt').mp ((land_shift_ne_zero _ _).mp hcon))
    rw [if_neg ht, if_neg hb]

/-- C3: toSignedTwosComplement parses D as an unsigned integer val with
nbits = length(D) and returns val - 2^nbits when bit nbits-1 of val is
set (equivalently, when 2^(nbits-1) ≤ val, since val < 2^nbits for a
binary string), and val unchanged otherwise; in particular "101" maps
to -3. -/
theorem C3_twos_complement_correct :
    (∀ D : List Char, D ≠ [] → IsBinDigits D →
      twos_complement D D.length 2
        = if 2 ^ (D.length - 1) ≤ parseUnsignedDigits 2 D
          then (parseUnsignedDigits 2 D : ℤ) - 2 ^ D.length
          else (parseUnsignedDigits 2 D : ℤ))
    ∧ twos_complement ['1','0','1'] 3 2 = -3 := by
  refine ⟨fun D hne h => twos_complement_char D h hne, ?_⟩
  decide

/-- Witness for C3 at the concrete input D = "10". -/
theorem C3_twos_complement_correct_witness :
    (['1','0'] : List Char) ≠ [] ∧ IsBinDigits ['1','0']
    ∧ twos_complement ['1','0'] (['1','0'] : List Char).length 2
        = if 2 ^ ((['1','0'] : List Char).length - 1) ≤ parseUnsignedDigits 2 ['1','0']
          then (parseUnsignedDigits 2 ['1','0'] : ℤ) - 2 ^ (['1','0'] : List Char).length
          else (parseUnsignedDigits 2 ['1','0'] : ℤ) :=
  ⟨by decide, by decide, C3_twos_complement_correct.1 ['1','0'] (by decide) (by decide)⟩

/-- C10: for every non-empty binary digit string D with n = length(D),
twos_complement(D, n, 2) lies in [-(2^(n-1)), 2^(n-1) - 1]. -/
theorem C10_twos_complement_range :
    ∀ D : List Char, D ≠ [] → IsBinDigits D →
      -((2:ℤ) ^ (D.length - 1)) ≤ twos_complement D D.length 2
      ∧ twos_complement D D.length 2 ≤ 2 ^ (D.length - 1) - 1 := by
  intro D hne h
  have hchar := twos_complement_char D h hne
  have hlt := parse_bin_lt D h
  have hlen : 1 ≤ D.length := List.length_pos.mpr hne
  have hsplit : (2:ℕ) ^ D.length = 2 ^ (D.length - 1) + 2 ^ (D.length - 1) := by
    have he : D.length - 1 + 1 = D.length := by omega
    conv_lhs => rw [← he]
    rw [pow_succ]
    ring
  rw [hchar]
  have h1 : (parseUnsignedDigits 2 D : ℤ) < 2 ^ D.length := by exact_mod_cast hlt
  have h2 : ((2:ℤ)) ^ D.length = 2 ^ (D.length - 1) + 2 ^ (D.length - 1) := by
    exact_mod_cast hsplit
  have h0 : (0:ℤ) ≤ (parseUnsignedDigits 2 D : ℤ) := Int.natCast_nonneg _
  have hp : (0:ℤ) < 2 ^ (D.length - 1) := by positivity
  by_cases hb : 2 ^ (D.length - 1) ≤ parseUnsignedDigits 2 D
  · rw [if_pos hb]
    have h3 : (2:ℤ) ^ (D.length - 1) ≤ (parseUnsignedDigits 2 D : ℤ) := by
      exact_mod_cast hb
    constructor
    · linarith
    · linarith
  · rw [if_neg hb]
    have h3 : (parseUnsignedDigits 2 D : ℤ) < 2 ^ (D.length - 1) := by
      exact_mod_cast Nat.lt_of_not_le hb
    constructor
    · linarith
    · linarith

theorem shrinkLoop_succ (fuel : ℕ) (b : ℚ) (e : ℤ) :
    shrinkLoop (fuel + 1) b e
      = if 10 < b then shrinkLoop fuel (b / 10) (e + 1) else some (b, e) := rfl

theorem growLoop_succ (fuel : ℕ) (b : ℚ) (e : ℤ) :
    growLoop (fuel + 1) b e
      = if b < 1 then growLoop fuel (b * 10) (e - 1) else some (b, e) := rfl

theorem shrinkLoop_sound : ∀ (fuel : ℕ) (b : ℚ) (e : ℤ) (m : ℚ) (e2 : ℤ),
    shrinkLoop fuel b e = some (m, e2) →
    m ≤ 10 ∧ m * (10:ℚ) ^ e2 = b * (10:ℚ) ^ e
      ∧ (0 < b → (1 < m ∨ m = b)) ∧ (0 < b → 0 < m) := by
  intro fuel
  induction fuel with
  | zero =>
    intro b e m e2 hsome
    simp only [shrinkLoop] at hsome
    split at hsome
    · simp at hsome
    · rename_i hle
      simp only [Option.some.injEq, Prod.mk.injEq] at hsome
      obtain ⟨rfl, rfl⟩ := hsome
      exact ⟨le_of_not_lt hle, rfl, fun _ => Or.inr rfl, fun hb => hb⟩
  | succ fuel ih =>
    intro b e m e2 hsome
    simp only [shrinkLoop] at hsome
    split at hsome
    · rename_i hgt
      obtain ⟨h1, h2, h3, h4⟩ := ih (b / 10) (e + 1) m e2 hsome
      refine ⟨h1, ?_, ?_, ?_⟩
      · rw [h2, zpow_add_one₀ (by norm_num : (10:ℚ) ≠ 0)]
        field_simp
        ring
      · intro hb
        have hbdiv : 0 < b / 10 := by positivity
        rcases h3 hbdiv with hm | hm
        · exact Or.inl hm
        · left
          rw [hm]
          exact (one_lt_div (by norm_num : (0:ℚ) < 10)).mpr hgt
      · intro hb
        exact h4 (by positivity)
    · rename_i hle
      simp only [Option.some.injEq, Prod.mk.injEq] at hsome
      obtain ⟨rfl, rfl⟩ := hsome
      exact ⟨le_of_not_lt hle, rfl, fun _ => Or.inr rfl, fun hb => hb⟩

theorem growLoop_sound : ∀ (fuel : ℕ) (b : ℚ) (e : ℤ) (m : ℚ) (e2 : ℤ),
    growLoop fuel b e = some (m, e2) →
    1 ≤ m ∧ m * (10:ℚ) ^ e2 = b * (10:ℚ) ^ e ∧ (b ≤ 10 → m ≤ 10) := by
  intro fuel
  induction fuel with
  | zero =>
    intro b e m e2 hsome
    simp only [growLoop] at hsome
    split at hsome
    · simp at hsome
    · rename_i hle
      simp only [Option.some.injEq, Prod.mk.injEq] at hsome
      obtain ⟨rfl, rfl⟩ := hsome
      exact ⟨le_of_not_lt hle, rfl, fun hb => hb⟩
  | succ fuel ih =>
    intro b e m e2 hsome
    simp only [growLoop] at hsome
    split at hsome
    · rename_i hlt
      obtain ⟨h1, h2, h3⟩ := ih (b * 10) (e - 1) m e2 hsome
      refine ⟨h1, ?_, ?_⟩
      · rw [h2, zpow_sub_one₀ (by norm_num : (10:ℚ) ≠ 0)]
        field_simp
        ring
      · intro _
        exact h3 (by linarith)
    · rename_i hle
      simp only [Option.some.injEq, Prod.mk.injEq] at hsome
      obtain ⟨rfl, rfl⟩ := hsome
      exact ⟨le_of_not_lt hle, rfl, fun hb => hb⟩

theorem normalizeFuel_sound (fuel : ℕ) (v : ℚ) (m : ℚ) (e : ℤ)
    (hsome : normalizeFuel fuel v = some (m, e)) :
    m * (10:ℚ) ^ e = v ∧ 1 ≤ m ∧ m ≤ 10 := by
  rcases hshr : shrinkLoop fuel v 0 with _ | ⟨b, e1⟩
  · simp only [normalizeFuel, hshr] at hsome
    exact Option.noConfusion hsome
  · simp only [normalizeFuel, hshr] at hsome
    obtain ⟨hb10, hprod, -, -⟩ := shrinkLoop_sound fuel v 0 b e1 hshr
    obtain ⟨h1m, hprod2, h10⟩ := growLoop_sound fuel b e1 m e hsome
    refine ⟨?_, h1m, h10 hb10⟩
    rw [hprod2, hprod, zpow_zero, mul_one]

theorem shrinkLoop_terminates : ∀ (fuel : ℕ) (b : ℚ) (e : ℤ),
    b ≤ (10:ℚ) ^ (fuel + 1) → ∃ r, shrinkLoop fuel b e = some r := by
  intro fuel
  induction fuel with
  | zero =>
    intro b e hb
    refine ⟨(b, e), ?_⟩
    simp only [shrinkLoop]
    rw [if_neg (by rw [pow_one] at hb; linarith)]
  | succ fuel ih =>
    intro b e hb
    by_cases hgt : 10 < b
    · have hb' : b / 10 ≤ (10:ℚ) ^ (fuel + 1) := by
        rw [div_le_iff (by norm_num : (0:ℚ) < 10)]
        calc b ≤ (10:ℚ) ^ (fuel + 1 + 1) := hb
          _ = (10:ℚ) ^ (fuel + 1) * 10 := by rw [pow_succ]
      obtain ⟨r, hr⟩ := ih (b / 10) (e + 1) hb'
      refine ⟨r, ?_⟩
      simp only [shrinkLoop]
      rw [if_pos hgt]
      exact hr
    · refine ⟨(b, e), ?_⟩
      simp only [shrinkLoop]
      rw [if_neg hgt]

theorem growLoop_terminates : ∀ (fuel : ℕ) (b : ℚ) (e : ℤ),
    1 ≤ b * (10:ℚ) ^ fuel → ∃ r, growLoop fuel b e = some r := by
  intro fuel
  induction fuel with
  | zero =>
    intro b e hb
    refine ⟨(b, e), ?_⟩
    simp only [growLoop]
    rw [if_neg (by rw [pow_zero, mul_one] at hb; linarith)]
  | succ fuel ih =>
    intro b e hb
    by_cases hlt : b < 1
    · have hb' : 1 ≤ (b * 10) * (10:ℚ) ^ fuel := by
        calc (1:ℚ) ≤ b * (10:ℚ) ^ (fuel + 1) := hb
          _ = (b * 10) * (10:ℚ) ^ fuel := by rw [pow_succ]; ring
      obtain ⟨r, hr⟩ := ih (b * 10) (e - 1) hb'
      refine ⟨r, ?_⟩
      simp only [growLoop]
      rw [if_pos hlt]
      exact hr
    · refine ⟨(b, e), ?_⟩
      simp only [growLoop]
      rw [if_neg hlt]

theorem normalize_terminates_of_pos (v : ℚ) (hv : 0 < v) : NormTerminates v := by
  obtain ⟨n1, hn1⟩ := pow_unbounded_of_one_lt v (by norm_num : (1:ℚ) < 10)
  obtain ⟨n2, hn2⟩ := pow_unbounded_of_one_lt v⁻¹ (by norm_num : (1:ℚ) < 10)
  have h10 : (1:ℚ) ≤ 10 := by norm_num
  have hshb : v ≤ (10:ℚ) ^ (max n1 n2 + 1) := by
    calc v ≤ (10:ℚ) ^ n1 := le_of_lt hn1
      _ ≤ (10:ℚ) ^ (max n1 n2 + 1) :=
          pow_le_pow_right h10 (le_trans (le_max_left n1 n2) (Nat.le_succ _))
  obtain ⟨⟨b, e1⟩, hshr⟩ := shrinkLoop_terminates (max n1 n2) v 0 hshb
  obtain ⟨-, -, hcase, hbpos⟩ := shrinkLoop_sound (max n1 n2) v 0 b e1 hshr
  have hgrb : 1 ≤ b * (10:ℚ) ^ (max n1 n2) := by
    rcases hcase hv with hb1 | hbv
    · have hpow : (1:ℚ) ≤ (10:ℚ) ^ (max n1 n2) := by
        calc (1:ℚ) = (10:ℚ) ^ (0:ℕ) := (pow_zero 10).symm
          _ ≤ (10:ℚ) ^ (max n1 n2) := pow_le_pow_right h10 (Nat.zero_le _)
      nlinarith
    · have hpow : (10:ℚ) ^ n2 ≤ (10:ℚ) ^ (max n1 n2) :=
        pow_le_pow_right h10 (le_max_right n1 n2)
      have hx : v⁻¹ < (10:ℚ) ^ (max n1 n2) := lt_of_lt_of_le hn2 hpow
      have hmul := mul_lt_mul_of_pos_left hx hv
      rw [mul_inv_cancel₀ (ne_of_gt hv)] at hmul
      rw [hbv]
      exact le_of_lt hmul
  obtain ⟨⟨m, e⟩, hgr⟩ := growLoop_terminates (max n1 n2) b e1 hgrb
  refine ⟨max n1 n2, m, e, ?_⟩
  simp only [normalizeFuel, hshr]
  exact hgr

theorem shrinkLoop_nonpos (fuel : ℕ) (b : ℚ) (e : ℤ) (hb : b ≤ 0) :
    shrinkLoop fuel b e = some (b, e) := by
  cases fuel with
  | zero =>
    simp only [shrinkLoop]
    rw [if_neg (by linarith : ¬ (10:ℚ) < b)]
  | succ fuel =>
    simp only [shrinkLoop]
    rw [if_neg (by linarith : ¬ (10:ℚ) < b)]

theorem growLoop_nonpos : ∀ (fuel : ℕ) (b : ℚ) (e : ℤ), b ≤ 0 →
    growLoop fuel b e = none := by
  intro fuel
  induction fuel with
  | zero =>
    intro b e hb
    simp only [growLoop]
    rw [if_pos (by linarith : b < 1)]
  | succ fuel ih =>
    intro b e hb
    simp only [growLoop]
    rw [if_pos (by linarith : b < 1)]
    exact ih (b * 10) (e - 1) (by linarith)

theorem normalizeFuel_nonpos (v : ℚ) (hv : v ≤ 0) (fuel : ℕ) :
    normalizeFuel fuel v = none := by
  simp only [normalizeFuel, shrinkLoop_nonpos fuel v 0 hv]
  exact growLoop_nonpos fuel v 0 hv

/-- C5 counterexample: at input 0 the source's `while base < 1` loop
never exits (0 * 10 = 0), so normalize returns nothing: the claim's
"for every decimal input value" fails at 0. -/
theorem C5_normalize_counterexample : ¬ NormTerminates 0 := by
  rintro ⟨fuel, m, e, hsome⟩
  rw [normalizeFuel_nonpos 0 le_rfl fuel] at hsome
  exact Option.noConfusion hsome

/-- C5 (amended to positive inputs): for every positive decimal input,
normalize terminates and every returned pair (m, e) satisfies
m * 10^e = v with 1 ≤ m ≤ 10 (the value left when the shift loops
stop, with e the net shift count); in particular
normalize(1420) = (1.42, 3). -/
theorem C5_normalize_pos_correct :
    (∀ v : ℚ, 0 < v →
      NormTerminates v
      ∧ (∀ fuel m e, normalizeFuel fuel v = some (m, e) →
          m * (10:ℚ) ^ e = v ∧ 1 ≤ m ∧ m ≤ 10))
    ∧ normalizeFuel 4 1420 = some (71/50, 3) := by
  constructor
  · intro v hv
    exact ⟨normalize_terminates_of_pos v hv,
      fun fuel m e hsome => normalizeFuel_sound fuel v m e hsome⟩
  · have e1 : shrinkLoop 4 (1420:ℚ) 0 = shrinkLoop 3 142 1 := by
      rw [show (4:ℕ) = 3 + 1 from rfl, shrinkLoop_succ,
        if_pos (by norm_num : (10:ℚ) < 1420)]
      norm_num
    have e2 : shrinkLoop 3 (142:ℚ) 1 = shrinkLoop 2 (71/5) 2 := by
      rw [show (3:ℕ) = 2 + 1 from rfl, shrinkLoop_succ,
        if_pos (by norm_num : (10:ℚ) < 142)]
      norm_num
    have e3 : shrinkLoop 2 ((71:ℚ)/5) 2 = shrinkLoop 1 (71/50) 3 := by
      rw [show (2:ℕ) = 1 + 1 from rfl, shrinkLoop_succ,
        if_pos (by norm_num : (10:ℚ) < 71/5)]
      norm_num
    have e4 : shrinkLoop 1 ((71:ℚ)/50) 3 = some (71/50, 3) := by
      rw [show (1:ℕ) = 0 + 1 from rfl, shrinkLoop_succ,
        if_neg (by norm_num : ¬ (10:ℚ) < 71/50)]
    have hg : growLoop 4 ((71:ℚ)/50) 3 = some (71/50, 3) := by
      rw [show (4:ℕ) = 3 + 1 from rfl, growLoop_succ,
        if_neg (by norm_num : ¬ ((71:ℚ)/50) < 1)]
    simp only [normalizeFuel, e1, e2, e3, e4]
    exact hg

/-- Witness for C5 at the concrete input v = 1420. -/
theorem C5_normalize_pos_correct_witness :
    (0:ℚ) < 1420
    ∧ (NormTerminates 1420
       ∧ ∀ fuel m e, normalizeFuel fuel 1420 = some (m, e) →
           m * (10:ℚ) ^ e = 1420 ∧ 1 ≤ m ∧ m ≤ 10) :=
  ⟨by norm_num, C5_normalize_pos_correct.1 1420 (by norm_num)⟩

/-- C6 counterexample: normalize applied to the parseable decimal input
0 runs forever, contradicting "each operation, including normalize
applied to any parseable decimal input such as zero, is a bounded-time
pure computation". -/
theorem C6_normalize_zero_diverges : NormalizeDiverges 0 :=
  fun fuel => normalizeFuel_nonpos 0 le_rfl fuel

/-- C6 (amended): normalize terminates exactly on inputs that parse to
a positive value; it diverges on zero and on negative inputs.  (All
other operations are total functions of their input in this
development.) -/
theorem C6_normalize_termination :
    (∀ v : ℚ, 0 < v → NormTerminates v)
    ∧ (∀ v : ℚ, v ≤ 0 → NormalizeDiverges v) :=
  ⟨fun v hv => normalize_terminates_of_pos v hv,
   fun v hv fuel => normalizeFuel_nonpos v hv fuel⟩

/-- Witness for C6 at the concrete inputs v = 1/2 and v = -3. -/
theorem C6_normalize_termination_witness :
    ((0:ℚ) < 1/2 ∧ NormTerminates (1/2))
    ∧ ((-3:ℚ) ≤ 0 ∧ NormalizeDiverges (-3)) :=
  ⟨⟨by norm_num, C6_normalize_termination.1 (1/2) (by norm_num)⟩,
   ⟨by norm_num, C6_normalize_termination.2 (-3) (by norm_num)⟩⟩

theorem digitVal_digitChar : ∀ d : ℕ, d < 16 → digitVal (Nat.digitChar d) = d := by
  decide

theorem parse_toDigitsBase (b : ℕ) (hb : 1 < b) (hb16 : b ≤ 16) :
    ∀ n acc, parseUnsignedDigits b (toDigitsBase b hb n acc)
      = n * b ^ acc.length + parseUnsignedDigits b acc := by
  intro n
  induction n using Nat.strong_induction_on with
  | _ n ih =>
    intro acc
    rw [toDigitsBase]
    split
    · rename_i h
      subst h
      simp
    · rename_i h
      rw [ih (n / b) (Nat.div_lt_self (Nat.pos_of_ne_zero h) hb), parse_cons,
        digitVal_digitChar (n % b) (lt_of_lt_of_le (Nat.mod_lt n (by omega)) hb16)]
      have hdm := Nat.div_add_mod n b
      rw [List.length_cons, pow_succ]
      conv_rhs => rw [← hdm]
      ring

/-- C9: for every non-negative integer n representable in at most 64
bits, rendering n with the binary destination format and parsing the
digits back in base 2 yields n, and likewise for the hexadecimal
destination format (digits after the "0x" prefix) in base 16. -/
theorem C9_roundtrip :
    ∀ n : ℕ, n < 2 ^ 64 →
      parseUnsignedDigits 2 (formatBinaryDefault n) = n
      ∧ parseUnsignedDigits 16 ((formatHexDefault n).drop 2) = n := by
  intro n _
  constructor
  · unfold formatBinaryDefault
    by_cases h : n = 0
    · subst h
      decide
    · rw [if_neg h, parse_toDigitsBase 2 (by norm_num) (by norm_num)]
      simp [parseUnsignedDigits]
  · unfold formatHexDefault
    simp only [List.drop_succ_cons, List.drop_zero]
    by_cases h : n = 0
    · subst h
      decide
    · rw [if_neg h, parse_toDigitsBase 16 (by norm_num) (by norm_num)]
      simp [parseUnsignedDigits]

/-- Witness for C9 at the concrete input n = 42. -/
theorem C9_roundtrip_witness :
    (42 : ℕ) < 2 ^ 64
    ∧ (parseUnsignedDigits 2 (formatBinaryDefault 42) = 42
       ∧ parseUnsignedDigits 16 ((formatHexDefault 42).drop 2) = 42) :=
  ⟨by norm_num, C9_roundtrip 42 (by norm_num)⟩

theorem processStep_some {α β : Type} (convert : α → Option β)
    (acc : List (Option β) × ℕ) (item : α) (b : β) (h : convert item = some b) :
    processStep convert acc item = (acc.1 ++ [some b], acc.2) := by
  simp [processStep, h]

theorem processStep_none {α β : Type} (convert : α → Option β)
    (acc : List (Option β) × ℕ) (item : α) (h : convert item = none) :
    processStep convert acc item = (acc.1 ++ [none], acc.2 + 1) := by
  simp [processStep, h]

theorem processBatch_spec {α β : Type} (convert : α → Option β) (items : List α) :
    processBatch convert items
      = (items.map convert, items.countP (fun a => (convert a).isNone)) := by
  suffices h : ∀ (l : List α) (acc : List (Option β)) (k : ℕ),
      l.foldl (processStep convert) (acc, k)
        = (acc ++ l.map convert, k + l.countP (fun a => (convert a).isNone)) by
    simpa [processBatch] using h items [] 0
  intro l
  induction l with
  | nil =>
    intro acc k
    simp
  | cons x xs ih =>
    intro acc k
    simp only [List.foldl_cons]
    cases hx : convert x with
    | some b =>
      rw [processStep_some convert (acc, k) x b hx]
      rw [ih]
      simp [List.countP_cons, hx, List.append_assoc]
    | none =>
      rw [processStep_none convert (acc, k) x hx]
      rw [ih]
      simp [List.countP_cons, hx, List.append_assoc]
      omega

/-- C7: each item in a batch is converted independently: the pipeline
yields per-item outcomes with a skip count equal to the number of
failing items, the skip count is invariant under reordering of the
batch, and any ordering of the concrete 3-item batch
["101", "21", "11"] (item 2 malformed) yields exactly 1 skip and 2
successes. -/
theorem C7_batch_independent :
    (∀ (α β : Type) (convert : α → Option β) (l1 l2 : List α), l1.Perm l2 →
        (processBatch convert l1).2 = (processBatch convert l2).2)
    ∧ (∀ l : List (List Char),
        l.Perm [['1','0','1'], ['2','1'], ['1','1']] →
        (processBatch binToDecItem l).2 = 1
        ∧ ((processBatch binToDecItem l).1.countP (fun o => o.isSome)) = 2) := by
  have hperm : ∀ (α β : Type) (convert : α → Option β) (l1 l2 : List α), l1.Perm l2 →
      (processBatch convert l1).2 = (processBatch convert l2).2 := by
    intro α β c l1 l2 hp
    rw [processBatch_spec, processBatch_spec]
    exact hp.countP_eq _
  refine ⟨hperm, ?_⟩
  intro l hl
  constructor
  · rw [hperm _ _ binToDecItem l _ hl]
    decide
  · rw [processBatch_spec, List.countP_map, hl.countP_eq]
    decide

/-- Witness for C7 at the identity ordering of the concrete batch. -/
theorem C7_batch_independent_witness :
    ([['1','0','1'], ['2','1'], ['1','1']] : List (List Char)).Perm
        [['1','0','1'], ['2','1'], ['1','1']]
    ∧ ((processBatch binToDecItem [['1','0','1'], ['2','1'], ['1','1']]).2 = 1
       ∧ ((processBatch binToDecItem
            [['1','0','1'], ['2','1'], ['1','1']]).1.countP (fun o => o.isSome)) = 2) :=
  ⟨List.Perm.refl _, C7_batch_independent.2 _ (List.Perm.refl _)⟩

/-- C8: for every slot, an override pattern string whose compilation
fails resolves to the compiled built-in default pattern for that slot,
and no error escapes the resolve boundary (the result is the default's
compilation). -/
theorem C8_pattern_fallback :
    ∀ (γ : Type) (compile : String → Option γ) (ov df : String) (d : γ),
      compile ov = none → compile df = some d →
      load_pattern compile (some ov) df = some d := by
  intro γ compile ov df d hov hdf
  simp only [load_pattern, Option.getD_some, hov]
  exact hdf

/-- Witness for C8 at the concrete sample compile oracle. -/
theorem C8_pattern_fallback_witness :
    sampleCompile sampleBadPattern = none
    ∧ sampleCompile sampleGoodPattern = some 0
    ∧ load_pattern sampleCompile (some sampleBadPattern) sampleGoodPattern = some 0 :=
  ⟨by decide, by decide,
   C8_pattern_fallback ℕ sampleCompile sampleBadPattern sampleGoodPattern 0
     (by decide) (by decide)⟩

/-- Witness for C10 at the concrete input D = "101". -/
theorem C10_twos_complement_range_witness :
    (['1','0','1'] : List Char) ≠ [] ∧ IsBinDigits ['1','0','1']
    ∧ (-((2:ℤ) ^ ((['1','0','1'] : List Char).length - 1))
        ≤ twos_complement ['1','0','1'] (['1','0','1'] : List Char).length 2
      ∧ twos_complement ['1','0','1'] (['1','0','1'] : List Char).length 2
        ≤ 2 ^ ((['1','0','1'] : List Char).length - 1) - 1) :=
  ⟨by decide, by decide, C10_twos_complement_range ['1','0','1'] (by decide) (by decide)⟩

end Convert
